import Mathlib

/-
Verification of the frame codec of infinite-storage-rs (src/etcher.rs,
src/source.rs, src/settings.rs) against its natural-language specification.

The codec is shallowly embedded over Nat and List:
  bytes are Nat values below 256, bits are Bool, a frame is the row-major
  list of its block colour triples. The source writes every pixel of a
  block with one identical triple (etch_pixel) and reads a block back as
  the per-channel integer mean over its pixels (get_pixel), so under a
  lossless muxer the block-triple list determines the pixel buffer for a
  fixed geometry, and reading recovers exactly the written triples. The
  per-pixel view is modelled separately (get_pixel below) for the
  threshold-tolerance property, where individual pixels are disturbed.
Rust panics (out-of-bounds indexing, division by zero, slicing past the
end, expect / unwrap) are modelled as none; the one surfaced error the
claims distinguish (the empty-payload rejection in rip_bytes) is modelled
with Except.
-/

namespace InfStorage

/-- Output mode of the codec, from src/settings.rs. -/
inductive OutputMode where
  | Binary : OutputMode
  | Color : OutputMode
deriving DecidableEq, Repr

/-- Payload container, from src/settings.rs (struct Data): a byte payload, a
bit payload, and the mode that selects which one is used. -/
structure Data where
  bytes : List Nat
  binary : List Bool
  out_mode : OutputMode

/-- Data::from_color from src/settings.rs. -/
def Data.from_color (bytes : List Nat) : Data := ⟨bytes, [], OutputMode.Color⟩

/-- Data::from_binary from src/settings.rs. -/
def Data.from_binary (binary : List Bool) : Data := ⟨[], binary, OutputMode.Binary⟩

/-- Settings from src/settings.rs. The fps field is omitted: it is handed to
the muxer only and never reaches the codec. The thread-count field is
declared as thread in settings.rs and accessed as threads in etcher.rs;
the accessing name is used here. -/
structure Settings where
  size : Nat
  threads : Nat
  width : Nat
  height : Nat
deriving DecidableEq, Repr

/-- A frame, modelled by its row-major list of block colour triples
(r, g, b). -/
abbrev Frame := List (Nat × Nat × Nat)

/-- The actual (block-aligned) extent of a dimension, from
EmbedSource::new and EmbedSource::from in src/source.rs:
the dimension minus its remainder modulo the block size. -/
def actualDim (d size : Nat) : Nat := d - d % size

/-- Number of blocks visited by the row-major loops of src/etcher.rs: steps
of the block size across the actual width and height. -/
def blocksPerFrame (size w h : Nat) : Nat :=
  (actualDim w size / size) * (actualDim h size / size)

/-- Big-endian bit expansion of one byte, from rip_binary in src/etcher.rs
(format the byte in base two, pad to 8 digits, most significant first). -/
def byteBits (b : Nat) : List Bool := (List.range 8).map (fun k => b.testBit (7 - k))

/-- rip_binary from src/etcher.rs: bytes to bits, most significant bit
first. -/
def rip_binary (byte_data : List Nat) : List Bool := (byte_data.map byteBits).flatten

/-- Big-endian bit expansion of one 32-bit word, from rip_binary_u32 in
src/etcher.rs. -/
def u32Bits (b : Nat) : List Bool := (List.range 32).map (fun k => b.testBit (31 - k))

/-- rip_binary_u32 from src/etcher.rs: 32-bit words to bits, most
significant bit first. -/
def rip_binary_u32 (bytes : List Nat) : List Bool := (bytes.map u32Bits).flatten

/-- The fold used by translate_u8 and translate_u32 in src/etcher.rs: shift
the accumulator left and add the next bit. The buffers are at most 32
bits long so the machine arithmetic never wraps and plain Nat is exact. -/
def bitsVal (buffer : List Bool) : Nat :=
  buffer.foldl (fun v b => v * 2 + (if b then 1 else 0)) 0

/-- translate_u8 from src/etcher.rs with its running buffer made explicit:
bits are consumed in groups of 8, most significant first; a trailing
buffer shorter than 8 bits is discarded. -/
def translate_u8_aux (buffer : List Bool) : List Bool → List Nat
  | [] => []
  | bit :: rest =>
    if (buffer ++ [bit]).length = 8 then bitsVal (buffer ++ [bit]) :: translate_u8_aux [] rest
    else translate_u8_aux (buffer ++ [bit]) rest

/-- translate_u8 from src/etcher.rs. -/
def translate_u8 (binary_data : List Bool) : List Nat := translate_u8_aux [] binary_data

/-- translate_u32 from src/etcher.rs with its running buffer made explicit:
bits are consumed in groups of 32, most significant first; a trailing
buffer shorter than 32 bits is discarded. -/
def translate_u32_aux (buffer : List Bool) : List Bool → List Nat
  | [] => []
  | bit :: rest =>
    if (buffer ++ [bit]).length = 32 then bitsVal (buffer ++ [bit]) :: translate_u32_aux [] rest
    else translate_u32_aux (buffer ++ [bit]) rest

/-- translate_u32 from src/etcher.rs. -/
def translate_u32 (binary_data : List Bool) : List Nat := translate_u32_aux [] binary_data

/-- rip_bytes from src/etcher.rs at the already-read-bytes boundary: an empty
byte vector is rejected with a surfaced error, a nonempty one is
returned unchanged. -/
def rip_bytes (byte_data : List Nat) : Except String (List Nat) :=
  if byte_data.isEmpty then Except.error "Empty files cannot be embedded" else Except.ok byte_data

/-- One invocation of etch_color from src/etcher.rs over the row-major block
grid of one fresh frame; nb counts the blocks still to visit and acc the
blocks already written. The three payload bytes of a block are indexed
before any bounds check, so none models the out-of-bounds panic when
fewer than 3 bytes remain at the start of a block write. Otherwise the
result is some (frame, index, ok): ok is true for the Ok return (grid
exhausted, payload remains) and false for the Err return (fewer than 3
bytes remain after the write), in which case the blocks not yet visited
keep the zeroed initial colour of the fresh frame. -/
def etch_color_loop (data : List Nat) : Nat → Nat → Frame → Option (Frame × Nat × Bool)
  | i, 0, acc => some (acc, i, true)
  | i, nb + 1, acc =>
    match data[i]?, data[i + 1]?, data[i + 2]? with
    | some r, some g, some b =>
      if i + 3 + 2 ≥ data.length then
        some (acc ++ [(r, g, b)] ++ List.replicate nb (0, 0, 0), i + 3, false)
      else
        etch_color_loop data (i + 3) nb (acc ++ [(r, g, b)])
    | _, _, _ => none

/-- The block triple etch_bw writes for one bit: brightness 255 on all three
channels for a true bit (white), 0 for a false bit (black). -/
def bwBlock (bit : Bool) : Nat × Nat × Nat :=
  (if bit then 255 else 0, if bit then 255 else 0, if bit then 255 else 0)

/-- One invocation of etch_bw from src/etcher.rs over the row-major block
grid of one fresh frame: a true bit paints the block white (255,255,255)
and a false bit black (0,0,0); none models the out-of-bounds panic when
the bit index is already past the data at the start of a block write;
the Err return fires when the index reaches the data length right after
a write. -/
def etch_bw_loop (data : List Bool) : Nat → Nat → Frame → Option (Frame × Nat × Bool)
  | i, 0, acc => some (acc, i, true)
  | i, nb + 1, acc =>
    match data[i]? with
    | some bit =>
      if i + 1 ≥ data.length then
        some (acc ++ [bwBlock bit] ++ List.replicate nb (0, 0, 0), i + 1, false)
      else
        etch_bw_loop data (i + 1) nb (acc ++ [bwBlock bit])
    | none => none

/-- The per-worker loop in etch from src/etcher.rs (Color branch): fill
fresh frames until etch_color returns Err; the Err frame is pushed as
well. The fuel argument bounds the iteration count; data.length + 1 is
always enough fuel when the grid holds at least one block (the Rust loop
never terminates when a frame holds zero blocks). -/
def etch_color_thread (nb : Nat) (data : List Nat) : Nat → Nat → Option (List Frame)
  | 0, _ => none
  | fuel + 1, i =>
    match etch_color_loop data i nb [] with
    | none => none
    | some (f, i2, true) => (etch_color_thread nb data fuel i2).map (fun fs => f :: fs)
    | some (f, _, false) => some [f]

/-- The per-worker loop in etch from src/etcher.rs (Binary branch). -/
def etch_bw_thread (nb : Nat) (data : List Bool) : Nat → Nat → Option (List Frame)
  | 0, _ => none
  | fuel + 1, i =>
    match etch_bw_loop data i nb [] with
    | none => none
    | some (f, i2, true) => (etch_bw_thread nb data fuel i2).map (fun fs => f :: fs)
    | some (f, _, false) => some [f]

/-- The chunks iterator of Rust slices (data.chunks(c)): successive
sub-slices of length c, the last one possibly shorter, none empty. The
fuel argument makes the recursion structural; the list length is always
enough fuel when c is at least 1. -/
def chunksOfAux {α : Type} (c : Nat) : Nat → List α → List (List α)
  | 0, _ => []
  | _, [] => []
  | fuel + 1, l => l.take c :: chunksOfAux c fuel (l.drop c)

/-- data.chunks(c) over a list. -/
def chunksOf {α : Type} (c : Nat) (l : List α) : List (List α) := chunksOfAux c l.length l

/-- The five-word instruction record built by etch_instructions in
src/etcher.rs. none models the division and modulo by zero panic when a
frame holds no size-by-size block worth of pixels. Faithful to the
source: both branches divide the pixel count by the squared block size
without multiplying by 3 in Color mode, and the final_frame increment is
keyed to the payload length modulo the pixel count of a frame. -/
def instruction_words (s : Settings) (d : Data) : Option (List Nat) :=
  let frame_size := s.height * s.width
  if s.size = 0 then none
  else
    let frame_data_size := frame_size / (s.size * s.size)
    if frame_data_size = 0 then none
    else
      match d.out_mode with
      | OutputMode.Color =>
        let len := d.bytes.length
        some [4294967295, len / frame_data_size + (if len % frame_size ≠ 0 then 1 else 0),
              len % frame_data_size, s.size, 4294967295]
      | OutputMode.Binary =>
        let len := d.binary.length
        some [0, len / frame_data_size + (if len % frame_size ≠ 0 then 1 else 0),
              len % frame_data_size, s.size, 4294967295]

/-- The block grid walked when writing or reading the instruction frame:
the hard-coded block size 5 over the full frame dimensions
(EmbedSource::new(instruction_size, width, height)). -/
def instructionBlocks (w h : Nat) : Nat := blocksPerFrame 5 w h

/-- etch_instructions from src/etcher.rs: serialize the record into 160
bits and etch them in binary onto a fresh frame with block size 5; the
Ok or Err outcome of the etch is discarded by the source. -/
def etch_instructions (s : Settings) (d : Data) : Option Frame :=
  match instruction_words s d with
  | none => none
  | some u32_instructions =>
    match etch_bw_loop (rip_binary_u32 u32_instructions) 0
        (instructionBlocks s.width s.height) [] with
    | none => none
    | some (f, _, _) => some f

/-- Sequence a list of optional results; none as soon as one is none. This
models collecting worker threads whose join().unwrap() panics when a
worker panicked. -/
def optSequence {α : Type} : List (Option α) → Option (List α)
  | [] => some []
  | none :: _ => none
  | some a :: t =>
    match optSequence t with
    | none => none
    | some l => some (a :: l)

/-- etch from src/etcher.rs: chunk the payload, run one encoding worker per
chunk, and concatenate the instruction frame with the worker frames in
spawn order. none models any panic: division by zero when a frame holds
no blocks, a worker indexing out of bounds, or the frame-size lookup
complete_frames[1] when no worker frame exists. -/
def etch (s : Settings) (d : Data) : Option (List Frame) :=
  let nb := blocksPerFrame s.size s.width s.height
  let worker_frames : Option (List (List Frame)) :=
    match d.out_mode with
    | OutputMode.Color =>
      let length := d.bytes.length
      if s.size = 0 then none
      else
        let frame_data_size := s.width * s.height / (s.size * s.size) * 3
        if frame_data_size = 0 then none
        else if s.threads = 0 then none
        else
          let chunk_data_size := (length / frame_data_size / s.threads + 1) * frame_data_size
          optSequence ((chunksOf chunk_data_size d.bytes).map
            (fun chunk => etch_color_thread nb chunk (chunk.length + 1) 0))
    | OutputMode.Binary =>
      let length := d.binary.length
      if s.size = 0 then none
      else
        let frame_data_size := s.width * s.height / (s.size * s.size)
        if frame_data_size = 0 then none
        else if s.threads = 0 then none
        else
          let chunk_data_size := (length / frame_data_size / s.threads + 1) * frame_data_size
          optSequence ((chunksOf chunk_data_size d.binary).map
            (fun chunk => etch_bw_thread nb chunk (chunk.length + 1) 0))
  match worker_frames, etch_instructions s d with
  | some wf, some instr =>
    if wf.flatten.isEmpty then none else some (instr :: wf.flatten)
  | _, _ => none

/-- read_bw from src/etcher.rs on an undisturbed frame: one bit per block,
true exactly when the red-channel mean is at least 127; on the frame
numbered final_frame the bit list is sliced down to its first final_bit
entries (none models the slice panic when final_bit exceeds the list
length). -/
def read_bw (frame : Frame) (current_frame final_frame final_bit : Nat) : Option (List Bool) :=
  let binary_data := frame.map (fun rgb => decide (127 ≤ rgb.1))
  if current_frame = final_frame then
    if final_bit ≤ binary_data.length then some (binary_data.take final_bit) else none
  else some binary_data

/-- read_color from src/etcher.rs on an undisturbed frame: the red, green
and blue channel of every block in row-major order; on the frame
numbered final_frame the byte list is sliced down to its first
final_byte entries (none models the slice panic when final_byte exceeds
the list length). -/
def read_color (frame : Frame) (current_frame final_frame final_byte : Nat) : Option (List Nat) :=
  let byte_data := (frame.map (fun rgb => [rgb.1, rgb.2.1, rgb.2.2])).flatten
  if current_frame = final_frame then
    if final_byte ≤ byte_data.length then some (byte_data.take final_byte) else none
  else some byte_data

/-- read_instructions from src/etcher.rs: read every block of the first
frame as one bit (via read_bw with current 0 and final 1, so never
truncated), regroup the bits into 32-bit words, and take the mode
marker, final frame, final byte and block size from words 0 to 3; the
width and height of the returned Settings are those of the incoming
frame. No word is validated by the source: any marker other than
0xFFFFFFFF selects Binary, and words past index 3 are never inspected.
none models the indexing panic on a frame yielding fewer than four
words. -/
def read_instructions (w h : Nat) (frame : Frame) (threads : Nat) :
    Option (OutputMode × Nat × Nat × Settings) :=
  match read_bw frame 0 1 0 with
  | none => none
  | some binary_data =>
    let u32_data := translate_u32 binary_data
    match u32_data[0]?, u32_data[1]?, u32_data[2]?, u32_data[3]? with
    | some w0, some w1, some w2, some w3 =>
      some (if w0 = 4294967295 then OutputMode.Color else OutputMode.Binary, w1, w2,
            ⟨w3, threads, w, h⟩)
    | _, _, _, _ => none

/-- The frame loop of read from src/etcher.rs, with the 1-based frame
counter: every frame is rewrapped with the decoded block size
(EmbedSource::from panics when the frame height is not a multiple of it,
and the stepping panics for block size 0). Color frames are read with
final_frame fixed to 2147483647 (the i32 maximum) exactly as in the
source, while Binary frames are read against the decoded final_frame
and repacked into bytes frame by frame via translate_u8. -/
def read_frames (out_mode : OutputMode) (final_frame final_byte size h : Nat) :
    Nat → List Frame → Option (List Nat)
  | _, [] => some []
  | current_frame, f :: rest =>
    if size = 0 then none
    else if h % size ≠ 0 then none
    else
      match (match out_mode with
             | OutputMode.Color => read_color f current_frame 2147483647 final_byte
             | OutputMode.Binary =>
               (read_bw f current_frame final_frame final_byte).map translate_u8) with
      | none => none
      | some frame_data =>
        (read_frames out_mode final_frame final_byte size h (current_frame + 1) rest).map
          (fun r => frame_data ++ r)

/-- read from src/etcher.rs: parse the first frame as the instruction frame,
then accumulate the payload of every remaining frame in order; w and h
are the pixel dimensions the demuxer reports for the frames. -/
def read (w h : Nat) (threads : Nat) (frames : List Frame) : Option (List Nat) :=
  match frames with
  | [] => none
  | instr :: rest =>
    match read_instructions w h instr threads with
    | none => none
    | some (out_mode, final_frame, final_byte, settings) =>
      read_frames out_mode final_frame final_byte settings.size h 1 rest

/-- Encode with etch, hand the ordered frame list to a lossless muxer that
returns every frame pixel-exact and in order, and decode with read. -/
def round_trip (s : Settings) (d : Data) : Option (List Nat) :=
  match etch s d with
  | none => none
  | some frames => read s.width s.height s.threads frames

/-- get_pixel from src/etcher.rs on one block, given the individual pixel
triples of the block: every channel is summed over the pixels and
divided (integer truncation) by the pixel count. -/
def get_pixel (pixels : List (Nat × Nat × Nat)) : Nat × Nat × Nat :=
  ((pixels.map (fun p => p.1)).sum / pixels.length,
   (pixels.map (fun p => p.2.1)).sum / pixels.length,
   (pixels.map (fun p => p.2.2)).sum / pixels.length)

/-- The bit decision of read_bw applied to one block of pixels: true exactly
when the red-channel mean is at least 127. -/
def read_bit (pixels : List (Nat × Nat × Nat)) : Bool := decide (127 ≤ (get_pixel pixels).1)

/-- A frame holding one bit per block: true paints the block white and
false black, exactly the triples etch_bw writes. -/
def bitsToBlocks (bits : List Bool) : Frame := bits.map bwBlock


/-! Helper lemmas shared by several developments. -/

lemma chunksOfAux_nil {α : Type} (c f : Nat) : chunksOfAux c f ([] : List α) = [] := by
  cases f <;> rfl

lemma chunksOf_of_length_le {α : Type} (c : Nat) (l : List α) (h1 : 1 ≤ l.length)
    (h2 : l.length ≤ c) : chunksOf c l = [l] := by
  cases l with
  | nil => simp at h1
  | cons x t =>
    show chunksOfAux c (x :: t).length (x :: t) = [x :: t]
    rw [List.length_cons, chunksOfAux, List.take_of_length_le h2, List.drop_eq_nil_of_le h2,
      chunksOfAux_nil]
    simp

lemma etch_color_loop_oob (data : List Nat) (i nb : Nat) (acc : Frame)
    (hi : data.length < i + 3) : etch_color_loop data i (nb + 1) acc = none := by
  have h2 : data[i + 2]? = none := by
    rw [List.getElem?_eq_none_iff]
    omega
  cases h0 : data[i]? with
  | none => simp [etch_color_loop, h0]
  | some r =>
    cases h1 : data[i + 1]? with
    | none => simp [etch_color_loop, h0, h1]
    | some g => simp [etch_color_loop, h0, h1, h2]

lemma le_sum_of_forall_le (l : List Nat) (a : Nat) (h : ∀ x ∈ l, a ≤ x) :
    a * l.length ≤ l.sum := by
  induction l with
  | nil => simp
  | cons x t ih =>
    have hx : a ≤ x := h x (by simp)
    have ht : a * t.length ≤ t.sum := ih (fun y hy => h y (by simp [hy]))
    simp only [List.length_cons, List.sum_cons, Nat.mul_succ]
    omega

lemma sum_le_of_forall_le (l : List Nat) (a : Nat) (h : ∀ x ∈ l, x ≤ a) :
    l.sum ≤ a * l.length := by
  induction l with
  | nil => simp
  | cons x t ih =>
    have hx : x ≤ a := h x (by simp)
    have ht : t.sum ≤ a * t.length := ih (fun y hy => h y (by simp [hy]))
    simp only [List.length_cons, List.sum_cons, Nat.mul_succ]
    omega

lemma byteBits_length (b : Nat) : (byteBits b).length = 8 := by simp [byteBits]

set_option maxRecDepth 4000 in
lemma bitsVal_byteBits_fin : ∀ x : Fin 256, bitsVal (byteBits x.val) = x.val := by decide

lemma translate_u8_aux_cons (buffer : List Bool) (bit : Bool) (rest : List Bool) :
    translate_u8_aux buffer (bit :: rest) =
      if (buffer ++ [bit]).length = 8 then bitsVal (buffer ++ [bit]) :: translate_u8_aux [] rest
      else translate_u8_aux (buffer ++ [bit]) rest := rfl

lemma translate_u8_aux_block (bits : List Bool) :
    ∀ (buffer rest : List Bool), buffer.length + bits.length = 8 → bits ≠ [] →
      translate_u8_aux buffer (bits ++ rest) = bitsVal (buffer ++ bits) :: translate_u8_aux [] rest := by
  induction bits with
  | nil => simp
  | cons x tl ih =>
    intro buffer rest hlen _
    cases tl with
    | nil =>
      have h7 : (buffer ++ [x]).length = 8 := by
        simp only [List.length_append, List.length_singleton]
        simp only [List.length_cons, List.length_nil] at hlen
        omega
      rw [List.cons_append, List.nil_append, translate_u8_aux_cons, if_pos h7]
    | cons y tl2 =>
      have h8 : ¬ (buffer ++ [x]).length = 8 := by
        simp only [List.length_append, List.length_singleton]
        simp only [List.length_cons] at hlen
        omega
      have hlen2 : (buffer ++ [x]).length + (y :: tl2).length = 8 := by
        simp only [List.length_append, List.length_singleton]
        simp only [List.length_cons] at hlen ⊢
        omega
      calc translate_u8_aux buffer ((x :: y :: tl2) ++ rest)
      _ = translate_u8_aux (buffer ++ [x]) ((y :: tl2) ++ rest) := by
        rw [List.cons_append, translate_u8_aux_cons, if_neg h8]
      _ = bitsVal ((buffer ++ [x]) ++ (y :: tl2)) :: translate_u8_aux [] rest :=
        ih (buffer ++ [x]) rest hlen2 (by simp)
      _ = bitsVal (buffer ++ x :: y :: tl2) :: translate_u8_aux [] rest := by
        simp [List.append_assoc]

/-! Claim C9: bit-pack involution. -/

/-- C9: for every byte sequence B (bytes being values below 256), converting
B to bits (8 booleans per byte, most significant bit first) and then
converting those bits back to bytes (consuming groups of 8 MSB-first,
discarding any tail shorter than 8) yields exactly B. -/
theorem C9_bit_pack_involution (B : List Nat) (hB : ∀ b ∈ B, b < 256) :
    translate_u8 (rip_binary B) = B := by
  induction B with
  | nil => rfl
  | cons b t ih =>
    have hb : b < 256 := hB b (by simp)
    have ht : t.map byteBits ≠ [] → True := fun _ => trivial
    show translate_u8_aux [] (((b :: t).map byteBits).flatten) = b :: t
    rw [List.map_cons, List.flatten_cons]
    have hne : byteBits b ≠ [] := by
      intro h
      have := byteBits_length b
      rw [h] at this
      simp at this
    rw [translate_u8_aux_block (byteBits b) [] _ (by rw [byteBits_length]; rfl) hne]
    rw [List.nil_append, bitsVal_byteBits_fin ⟨b, hb⟩]
    exact congrArg (fun l => b :: l) (ih (fun x hx => hB x (by simp [hx])))

/-- C9 witness at a concrete byte sequence. -/
theorem C9_witness : translate_u8 (rip_binary [0, 165, 255]) = [0, 165, 255] :=
  C9_bit_pack_involution [0, 165, 255] (by decide)

/-! Claim C10: color-mode out-of-bounds panic on short data. -/

/-- C10: etch_color indexes the three block bytes before any bounds check,
so a block write starting with fewer than 3 unconsumed bytes hits an
out-of-bounds panic (none); consequently encoding any Color payload of
length 1 or 2 makes etch panic rather than surface an error, while the
empty payload is the one input rejected gracefully, by rip_bytes. -/
theorem C10_color_short_chunk_panics
    (chunk : List Nat) (i nb : Nat) (acc : Frame) (s : Settings) (P : List Nat)
    (hi : chunk.length < i + 3)
    (hnb : 1 ≤ blocksPerFrame s.size s.width s.height)
    (hsz : 1 ≤ s.size) (ht : 1 ≤ s.threads)
    (hP1 : 1 ≤ P.length) (hP2 : P.length ≤ 2) :
    etch_color_loop chunk i (nb + 1) acc = none ∧
    etch s (Data.from_color P) = none ∧
    rip_bytes [] = Except.error "Empty files cannot be embedded" := by
  refine ⟨etch_color_loop_oob chunk i nb acc hi, ?_, rfl⟩
  have hs0 : ¬ s.size = 0 := by omega
  have hsize2 : 0 < s.size * s.size := Nat.mul_pos (by omega) (by omega)
  have hx : 1 ≤ actualDim s.width s.size / s.size := by
    rcases Nat.eq_zero_or_pos (actualDim s.width s.size / s.size) with h | h
    · exfalso
      unfold blocksPerFrame at hnb
      rw [h] at hnb
      simp at hnb
    · exact h
  have hy : 1 ≤ actualDim s.height s.size / s.size := by
    rcases Nat.eq_zero_or_pos (actualDim s.height s.size / s.size) with h | h
    · exfalso
      unfold blocksPerFrame at hnb
      rw [h] at hnb
      simp at hnb
    · exact h
  have hxw : s.size ≤ actualDim s.width s.size := (Nat.one_le_div_iff (by omega)).1 hx
  have hyh : s.size ≤ actualDim s.height s.size := (Nat.one_le_div_iff (by omega)).1 hy
  have hwh : s.size * s.size ≤ s.width * s.height :=
    le_trans (Nat.mul_le_mul hxw hyh) (Nat.mul_le_mul (Nat.sub_le _ _) (Nat.sub_le _ _))
  have hfds1 : 1 ≤ s.width * s.height / (s.size * s.size) := (Nat.one_le_div_iff hsize2).2 hwh
  have hfds3 : 3 ≤ s.width * s.height / (s.size * s.size) * 3 := by omega
  have hfds0 : ¬ s.width * s.height / (s.size * s.size) * 3 = 0 := by omega
  have ht0 : ¬ s.threads = 0 := by omega
  have hcds : s.width * s.height / (s.size * s.size) * 3 ≤
      (P.length / (s.width * s.height / (s.size * s.size) * 3) / s.threads + 1) *
        (s.width * s.height / (s.size * s.size) * 3) := by
    have h := Nat.add_mul (P.length / (s.width * s.height / (s.size * s.size) * 3) / s.threads) 1
      (s.width * s.height / (s.size * s.size) * 3)
    omega
  have hchunks : chunksOf
      ((P.length / (s.width * s.height / (s.size * s.size) * 3) / s.threads + 1) *
        (s.width * s.height / (s.size * s.size) * 3)) P = [P] :=
    chunksOf_of_length_le _ P hP1 (by omega)
  obtain ⟨nb2, hnb2⟩ : ∃ k, blocksPerFrame s.size s.width s.height = k + 1 :=
    ⟨blocksPerFrame s.size s.width s.height - 1, by omega⟩
  have hloop : etch_color_loop P 0 (blocksPerFrame s.size s.width s.height) [] = none := by
    rw [hnb2]
    exact etch_color_loop_oob P 0 nb2 [] (by omega)
  have hthread :
      etch_color_thread (blocksPerFrame s.size s.width s.height) P (P.length + 1) 0 = none := by
    rw [etch_color_thread, hloop]
  simp only [etch, Data.from_color]
  rw [if_neg hs0, if_neg hfds0, if_neg ht0, hchunks]
  simp only [List.map_cons, List.map_nil, hthread]
  rfl

/-- C10 witness at a concrete one-byte chunk and payload. -/
theorem C10_witness :
    etch_color_loop [7] 0 1 [] = none ∧
    etch ⟨1, 1, 1, 1⟩ (Data.from_color [7]) = none ∧
    rip_bytes [] = Except.error "Empty files cannot be embedded" :=
  C10_color_short_chunk_panics [7] 0 0 [] ⟨1, 1, 1, 1⟩ [7] (by decide) (by decide) (by decide)
    (by decide) (by decide) (by decide)

/-! Claim C5: truncation of the final frame. -/

/-- C5: the claim states that a final frame with final_unit zero is returned
in full (zero as the fully-used sentinel). The source instead slices the
final frame unconditionally, so final_unit zero returns the empty unit
sequence in both modes: here a final frame of eight white blocks yields
no bits and a final frame of two colour blocks yields no bytes. -/
theorem C5_final_unit_zero_returns_empty :
    read_bw (List.replicate 8 (255, 255, 255)) 1 1 0 = some [] ∧
    read_color [(1, 2, 3), (4, 5, 6)] 1 1 0 = some [] ∧
    read_bw (List.replicate 8 (255, 255, 255)) 1 1 3 = some [true, true, true] := by
  decide

/-! Claim C8: binary threshold tolerance. -/

/-- C8 counterexample: the claim says a black block perturbed by a delta of
at most 127 in every channel still reads back as bit 0; but a black
block whose pixels are all raised by exactly 127 (to 127,127,127) meets
the red-mean-at-least-127 rule and reads back as bit 1. -/
theorem C8_counterexample : read_bit (List.replicate 4 (127, 127, 127)) = true := by decide

/-- C8 amended: under the red-channel-mean threshold rule, a written white
block perturbed per-pixel by at most delta with delta at most 127 still
reads as bit 1, while a written black block needs delta at most 126 to
still read as bit 0 (the rule reads a mean of exactly 127 as 1). -/
theorem C8_amended_threshold_tolerance (pixels : List (Nat × Nat × Nat)) (delta : Nat)
    (hne : pixels ≠ []) :
    ((delta ≤ 127 ∧ ∀ p ∈ pixels, 255 - delta ≤ p.1) → read_bit pixels = true) ∧
    ((delta ≤ 126 ∧ ∀ p ∈ pixels, p.1 ≤ delta) → read_bit pixels = false) := by
  have hlen : 0 < pixels.length := List.length_pos.mpr hne
  constructor
  · rintro ⟨hd, hp⟩
    have h128 : ∀ x ∈ pixels.map (fun p => p.1), 128 ≤ x := by
      intro x hx
      obtain ⟨p, hpmem, rfl⟩ := List.mem_map.mp hx
      have := hp p hpmem
      omega
    have hsum : 128 * pixels.length ≤ (pixels.map (fun p => p.1)).sum := by
      have h := le_sum_of_forall_le (pixels.map (fun p => p.1)) 128 h128
      simpa using h
    have havg : 127 ≤ (pixels.map (fun p => p.1)).sum / pixels.length := by
      rw [Nat.le_div_iff_mul_le hlen]
      nlinarith
    simp only [read_bit, get_pixel, decide_eq_true_eq]
    exact havg
  · rintro ⟨hd, hp⟩
    have h126 : ∀ x ∈ pixels.map (fun p => p.1), x ≤ 126 := by
      intro x hx
      obtain ⟨p, hpmem, rfl⟩ := List.mem_map.mp hx
      have := hp p hpmem
      omega
    have hsum : (pixels.map (fun p => p.1)).sum ≤ 126 * pixels.length := by
      have h := sum_le_of_forall_le (pixels.map (fun p => p.1)) 126 h126
      simpa using h
    have havg : (pixels.map (fun p => p.1)).sum / pixels.length < 127 := by
      rw [Nat.div_lt_iff_lt_mul hlen]
      nlinarith
    simp only [read_bit, get_pixel, decide_eq_false_iff_not]
    omega

/-- C8 witness: a white block perturbed down by 127 still reads as 1, a
black block perturbed up by 126 still reads as 0. -/
theorem C8_witness :
    read_bit [(128, 128, 128)] = true ∧ read_bit [(126, 126, 126)] = false :=
  ⟨(C8_amended_threshold_tolerance [(128, 128, 128)] 127 (by decide)).1 ⟨by decide, by decide⟩,
   (C8_amended_threshold_tolerance [(126, 126, 126)] 126 (by decide)).2 ⟨by decide, by decide⟩⟩

/-! Claim C6: instruction validation. -/

/-- C6 counterexample: the claim says instruction parsing fails whenever
word 5 is not 0xFFFFFFFF (and on other invalid words). Feeding a first
frame whose five words are 0, 3, 2, 5, 0 - terminator 0 instead of
0xFFFFFFFF - parses successfully, and a frame with marker 12345 (neither
all-ones nor zero) and block word 0 parses successfully as Binary. -/
theorem C6_counterexample :
    read_instructions 80 50 (bitsToBlocks (rip_binary_u32 [0, 3, 2, 5, 0])) 1
      = some (OutputMode.Binary, 3, 2, ⟨5, 1, 80, 50⟩) ∧
    read_instructions 80 50 (bitsToBlocks (rip_binary_u32 [12345, 7, 9, 0, 4294967295])) 1
      = some (OutputMode.Binary, 7, 9, ⟨0, 1, 80, 50⟩) := by
  decide

/-- C6 amended: instruction parsing performs no validation and cannot fail
on word values: whenever the first frame yields at least four 32-bit
words, parsing succeeds unconditionally; word 1 equal to 0xFFFFFFFF
selects Color and every other value selects Binary; the block word (even
zero) is taken as-is and the terminator word is never inspected. -/
theorem C6_amended_no_validation (w h threads : Nat) (frame : Frame) (ws : List Nat)
    (hws : translate_u32 (frame.map (fun rgb => decide (127 ≤ rgb.1))) = ws)
    (h4 : 4 ≤ ws.length) :
    read_instructions w h frame threads =
      some (if ws.getD 0 0 = 4294967295 then OutputMode.Color else OutputMode.Binary,
            ws.getD 1 0, ws.getD 2 0, ⟨ws.getD 3 0, threads, w, h⟩) := by
  have hx : ∃ a b c d e, ws = a :: b :: c :: d :: e := by
    cases ws with
    | nil => exfalso; simp at h4
    | cons a t1 =>
      cases t1 with
      | nil => exfalso; simp at h4
      | cons b t2 =>
        cases t2 with
        | nil => exfalso; simp at h4
        | cons c t3 =>
          cases t3 with
          | nil => exfalso; simp at h4
          | cons d t4 => exact ⟨a, b, c, d, t4, rfl⟩
  obtain ⟨w0, w1, w2, w3, rest, rfl⟩ := hx
  simp [read_instructions, read_bw, hws]

/-- C6 witness: a frame carrying marker 0xFFFFFFFF, block word 0 and
terminator 0 parses as Color with those raw words. -/
theorem C6_amended_witness :
    read_instructions 80 50 (bitsToBlocks (rip_binary_u32 [4294967295, 1, 0, 0, 0])) 1
      = some (OutputMode.Color, 1, 0, ⟨0, 1, 80, 50⟩) := by
  have h := C6_amended_no_validation 80 50 1 (bitsToBlocks (rip_binary_u32 [4294967295, 1, 0, 0, 0]))
      [4294967295, 1, 0, 0, 0] (by decide) (by decide)
  simpa using h

/-! Claims C1 to C4: the decode path evaluated on concrete inputs. -/

set_option maxRecDepth 40000 in
/-- C1: the claim states the Color round trip returns the payload exactly.
Encoding the 3-byte payload 1, 2, 3 with block 40 on an 80x40 frame (one
instruction frame plus one payload frame of two blocks) and decoding it
returns 1, 2, 3, 0, 0, 0: the decoder reads Color frames with
final_frame pinned to the i32 maximum, so the final-frame truncation to
final_unit bytes never happens and the zero padding of the last frame
leaks into the output. -/
theorem C1_color_round_trip_diverges :
    round_trip ⟨40, 1, 80, 40⟩ (Data.from_color [1, 2, 3]) = some [1, 2, 3, 0, 0, 0] ∧
    some [1, 2, 3, 0, 0, 0] ≠ some [1, 2, 3] := by
  constructor
  · decide
  · decide

set_option maxRecDepth 40000 in
/-- C2: the claim states the Binary round trip returns the payload exactly,
with the decoder accumulating all bits before repacking. Encoding the
byte 0xA5 with block 40 on an 80x40 frame (8 bits over four 2-bit payload
frames) and decoding returns the empty byte list: the decoder repacks
each frame separately, so every 2-bit frame is discarded by the
bits-to-bytes transform, and the instruction arithmetic makes
final_frame 5, a frame number that is never reached. -/
theorem C2_binary_round_trip_diverges :
    round_trip ⟨40, 1, 80, 40⟩ (Data.from_binary (rip_binary [165])) = some [] ∧
    some ([] : List Nat) ≠ some [165] := by
  constructor
  · decide
  · decide

/-- C3: the claim states the instruction record carries final_frame equal to
the ceiling of U over units_per_frame and final_unit equal to U modulo
units_per_frame. For an 18-byte Color payload with block 2 on a 4x4
frame (4 blocks, 12 bytes per frame) the claim gives final_frame 2 and
final_unit 6, but the encoder writes final_frame 5 and final_unit 2: its
Color branch divides by the squared block size without multiplying by 3,
and the increment is keyed to U modulo the pixel count. -/
theorem C3_instruction_record_diverges :
    instruction_words ⟨2, 1, 4, 4⟩ (Data.from_color (List.replicate 18 9))
      = some [4294967295, 5, 2, 2, 4294967295] ∧
    (18 + 12 - 1) / 12 = 2 ∧ 18 % 12 = 6 := by
  constructor
  · decide
  · constructor <;> decide

/-- C4: the claim states the decoder flags the final frame (is_final exactly
at k = final_frame) in both modes. Feeding a Color stream whose
instruction frame declares final_frame 1 and final_byte 1, the single
payload frame (k = 1) is still read in full - six bytes instead of the
one byte the claim mandates - because read in the source calls
read_color with final_frame fixed to 2147483647. -/
theorem C4_color_final_frame_never_truncated :
    read 80 40 1 [bitsToBlocks (rip_binary_u32 [4294967295, 1, 1, 40, 4294967295]),
        [(9, 8, 7), (6, 5, 4)]]
      = some [9, 8, 7, 6, 5, 4] ∧
    some [9, 8, 7, 6, 5, 4] ≠ some [9] := by
  constructor
  · decide
  · decide

/-! Worker-count invariance: canonical frame sequences and the lemma stack
relating the fueled worker loops to them. -/

/-- The colour triples of successive 3-byte groups of a payload (any short
tail dropped): the blocks one color frame receives in payload order. -/
def triplesOf : List Nat → Frame
  | r :: g :: b :: rest => (r, g, b) :: triplesOf rest
  | _ => []

/-- The frame sequence one color worker produces from a chunk whose length
is a positive multiple of 3: 3 * nb bytes per frame, the last frame
padded with zero blocks. -/
def colorFrames (nb : Nat) (P : List Nat) : List Frame :=
  if h : nb = 0 ∨ P.length ≤ 3 * nb then
    [triplesOf P ++ List.replicate (nb - P.length / 3) (0, 0, 0)]
  else
    triplesOf (P.take (3 * nb)) :: colorFrames nb (P.drop (3 * nb))
termination_by P.length
decreasing_by
  push_neg at h
  simp only [List.length_drop]
  omega

/-- The frame sequence one binary worker produces from a nonempty chunk:
nb bits per frame, the last frame padded with zero blocks. -/
def bwFrames (nb : Nat) (P : List Bool) : List Frame :=
  if h : nb = 0 ∨ P.length ≤ nb then
    [bitsToBlocks P ++ List.replicate (nb - P.length) (0, 0, 0)]
  else
    bitsToBlocks (P.take nb) :: bwFrames nb (P.drop nb)
termination_by P.length
decreasing_by
  push_neg at h
  simp only [List.length_drop]
  omega

lemma etch_color_loop_acc (data : List Nat) : ∀ (nb i : Nat) (acc : Frame),
    etch_color_loop data i nb acc =
      (etch_color_loop data i nb []).map (fun r => (acc ++ r.1, r.2)) := by
  intro nb
  induction nb with
  | zero => intro i acc; simp [etch_color_loop]
  | succ nb ih =>
    intro i acc
    rcases h0 : data[i]? with _ | r
    · simp [etch_color_loop, h0]
    rcases h1 : data[i + 1]? with _ | g
    · simp [etch_color_loop, h0, h1]
    rcases h2 : data[i + 2]? with _ | b
    · simp [etch_color_loop, h0, h1, h2]
    by_cases hc : i + 3 + 2 ≥ data.length
    · simp [etch_color_loop, h0, h1, h2, hc]
    · simp only [etch_color_loop, h0, h1, h2]
      rw [if_neg hc, if_neg hc]
      rw [ih (i + 3) (acc ++ [(r, g, b)]), ih (i + 3) ([] ++ [(r, g, b)])]
      cases hbase : etch_color_loop data (i + 3) nb [] <;> simp

lemma etch_color_loop_shift (data : List Nat) (j : Nat) : ∀ (nb i : Nat),
    etch_color_loop data (j + i) nb [] =
      (etch_color_loop (data.drop j) i nb []).map (fun r => (r.1, j + r.2.1, r.2.2)) := by
  intro nb
  induction nb with
  | zero => intro i; simp [etch_color_loop]
  | succ nb ih =>
    intro i
    have e0 : data[j + i]? = (data.drop j)[i]? := (List.getElem?_drop data j i).symm
    have e1 : data[j + i + 1]? = (data.drop j)[i + 1]? := by
      rw [List.getElem?_drop, Nat.add_assoc]
    have e2 : data[j + i + 2]? = (data.drop j)[i + 2]? := by
      rw [List.getElem?_drop, Nat.add_assoc]
    rcases h0 : (data.drop j)[i]? with _ | r
    · simp only [etch_color_loop, e0, h0]
      simp
    rcases h1 : (data.drop j)[i + 1]? with _ | g
    · simp only [etch_color_loop, e0, h0, e1, h1]
      simp
    rcases h2 : (data.drop j)[i + 2]? with _ | b
    · simp only [etch_color_loop, e0, h0, e1, h1, e2, h2]
      simp
    have hlt : i < (data.drop j).length := by
      by_contra hge
      rw [List.getElem?_eq_none_iff.mpr (by omega)] at h0
      exact Option.noConfusion h0
    have hdlen : (data.drop j).length = data.length - j := List.length_drop j data
    have hjlen : j ≤ data.length := by omega
    by_cases hc : i + 3 + 2 ≥ (data.drop j).length
    · have hc2 : j + i + 3 + 2 ≥ data.length := by omega
      simp only [etch_color_loop, e0, h0, e1, h1, e2, h2]
      rw [if_pos hc2, if_pos hc]
      simp [Nat.add_assoc]
    · have hc2 : ¬ j + i + 3 + 2 ≥ data.length := by omega
      simp only [etch_color_loop, e0, h0, e1, h1, e2, h2]
      rw [if_neg hc2, if_neg hc]
      rw [etch_color_loop_acc data nb (j + i + 3) ([] ++ [(r, g, b)])]
      rw [etch_color_loop_acc (data.drop j) nb (i + 3) ([] ++ [(r, g, b)])]
      have hshift : etch_color_loop data (j + (i + 3)) nb [] =
          (etch_color_loop (data.drop j) (i + 3) nb []).map
            (fun r => (r.1, j + r.2.1, r.2.2)) := ih (i + 3)
      rw [show j + i + 3 = j + (i + 3) by omega, hshift]
      cases hbase : etch_color_loop (data.drop j) (i + 3) nb [] <;> simp

lemma etch_color_loop_spec : ∀ (nb : Nat) (data : List Nat) (acc : Frame),
    3 ∣ data.length → 3 ≤ data.length →
    etch_color_loop data 0 nb acc =
      (if data.length ≤ 3 * nb then
        some (acc ++ triplesOf data ++ List.replicate (nb - data.length / 3) (0, 0, 0),
          data.length, false)
      else some (acc ++ triplesOf (data.take (3 * nb)), 3 * nb, true)) := by
  intro nb
  induction nb with
  | zero =>
    intro data acc h3 hge
    rw [if_neg (by omega)]
    simp [etch_color_loop, triplesOf]
  | succ nb ih =>
    intro data acc h3 hge
    rcases data with _ | ⟨r, data⟩
    · simp at hge
    rcases data with _ | ⟨g, data⟩
    · simp at hge
    rcases data with _ | ⟨b, rest⟩
    · simp at hge
    have hlen : (r :: g :: b :: rest).length = rest.length + 3 := by simp
    have h3r : 3 ∣ rest.length := by
      rw [hlen] at h3
      omega
    by_cases hr0 : rest.length = 0
    · have hrest : rest = [] := List.length_eq_zero.mp hr0
      subst hrest
      simp only [etch_color_loop, List.getElem?_cons_zero, List.getElem?_cons_succ]
      rw [if_pos (by simp), if_pos (by simp only [List.length_cons, List.length_nil]; omega)]
      simp [triplesOf]
    · have hr3 : 3 ≤ rest.length := by omega
      have hc : ¬ 0 + 3 + 2 ≥ (r :: g :: b :: rest).length := by
        rw [hlen]
        omega
      simp only [etch_color_loop, List.getElem?_cons_zero, List.getElem?_cons_succ]
      rw [if_neg hc]
      rw [etch_color_loop_acc _ nb (0 + 3) (acc ++ [(r, g, b)])]
      have hdrop : (r :: g :: b :: rest).drop 3 = rest := by simp
      have hsh := etch_color_loop_shift (r :: g :: b :: rest) 3 nb 0
      rw [hdrop] at hsh
      rw [show (0 + 3 : Nat) = 3 + 0 by omega, hsh]
      rw [ih rest [] h3r hr3]
      by_cases hsmall : rest.length ≤ 3 * nb
      · rw [if_pos hsmall, if_pos (by rw [hlen]; omega)]
        have htr : triplesOf (r :: g :: b :: rest) = (r, g, b) :: triplesOf rest := rfl
        have hdiv : (r :: g :: b :: rest).length / 3 = rest.length / 3 + 1 := by
          rw [hlen]
          omega
        have hnn : nb + 1 - (rest.length / 3 + 1) = nb - rest.length / 3 := by omega
        rw [htr, hdiv, hnn, hlen]
        simp [Nat.add_comm]
      · rw [if_neg hsmall, if_neg (by rw [hlen]; omega)]
        have htk : (r :: g :: b :: rest).take (3 * (nb + 1)) =
            r :: g :: b :: rest.take (3 * nb) := by
          rw [show 3 * (nb + 1) = 3 * nb + 3 by ring]
          rfl
        have htr : triplesOf (r :: g :: b :: rest.take (3 * nb)) =
            (r, g, b) :: triplesOf (rest.take (3 * nb)) := rfl
        rw [htk, htr, show 3 * (nb + 1) = 3 + 3 * nb by ring]
        simp

lemma etch_color_thread_step_err (nb : Nat) (data : List Nat) (fuel i : Nat) (f : Frame)
    (i2 : Nat) (h : etch_color_loop data i nb [] = some (f, i2, false)) :
    etch_color_thread nb data (fuel + 1) i = some [f] := by
  simp [etch_color_thread, h]

lemma etch_color_thread_step_ok (nb : Nat) (data : List Nat) (fuel i : Nat) (f : Frame)
    (i2 : Nat) (h : etch_color_loop data i nb [] = some (f, i2, true)) :
    etch_color_thread nb data (fuel + 1) i =
      (etch_color_thread nb data fuel i2).map (fun fs => f :: fs) := by
  simp [etch_color_thread, h]

lemma etch_color_thread_drop : ∀ (fuel nb : Nat) (data : List Nat) (j : Nat),
    etch_color_thread nb data fuel j = etch_color_thread nb (data.drop j) fuel 0 := by
  intro fuel
  induction fuel with
  | zero => intro nb data j; rfl
  | succ fuel ih =>
    intro nb data j
    have hsh := etch_color_loop_shift data j nb 0
    rw [Nat.add_zero] at hsh
    simp only [etch_color_thread]
    cases hbase : etch_color_loop (data.drop j) 0 nb [] with
    | none =>
      rw [hsh, hbase]
      simp
    | some res =>
      obtain ⟨f, i2, ok⟩ := res
      rw [hsh, hbase]
      cases ok with
      | false => simp
      | true =>
        simp only [Option.map_some']
        rw [ih nb data (j + i2), ih nb (data.drop j) i2, List.drop_drop]

lemma etch_color_thread_spec : ∀ (fuel nb : Nat) (data : List Nat),
    3 ∣ data.length → 3 ≤ data.length → 1 ≤ nb → data.length ≤ fuel →
    etch_color_thread nb data fuel 0 = some (colorFrames nb data) := by
  intro fuel
  induction fuel with
  | zero => intro nb data h3 hge hnb hf; omega
  | succ fuel ih =>
    intro nb data h3 hge hnb hf
    by_cases hsmall : data.length ≤ 3 * nb
    · have hloop : etch_color_loop data 0 nb [] =
          some ([] ++ triplesOf data ++ List.replicate (nb - data.length / 3) (0, 0, 0),
            data.length, false) := by
        rw [etch_color_loop_spec nb data [] h3 hge, if_pos hsmall]
      rw [etch_color_thread_step_err nb data fuel 0 _ _ hloop]
      rw [colorFrames]
      rw [dif_pos (Or.inr hsmall)]
      simp
    · have hloop : etch_color_loop data 0 nb [] =
          some ([] ++ triplesOf (data.take (3 * nb)), 3 * nb, true) := by
        rw [etch_color_loop_spec nb data [] h3 hge, if_neg hsmall]
      rw [etch_color_thread_step_ok nb data fuel 0 _ _ hloop]
      rw [etch_color_thread_drop fuel nb data (3 * nb)]
      have hd3 : 3 ∣ (data.drop (3 * nb)).length := by
        simp only [List.length_drop]
        omega
      have hge3 : 3 ≤ (data.drop (3 * nb)).length := by
        simp only [List.length_drop]
        omega
      have hfuel : (data.drop (3 * nb)).length ≤ fuel := by
        simp only [List.length_drop]
        omega
      rw [ih nb (data.drop (3 * nb)) hd3 hge3 hnb hfuel]
      conv_rhs => rw [colorFrames]
      rw [dif_neg (by simp only [not_or]; exact ⟨by omega, hsmall⟩)]
      simp

lemma colorFrames_append : ∀ (m nb : Nat) (A B : List Nat), 1 ≤ nb → 1 ≤ m →
    A.length = 3 * nb * m → 1 ≤ B.length →
    colorFrames nb (A ++ B) = colorFrames nb A ++ colorFrames nb B := by
  intro m
  induction m with
  | zero => intro nb A B hnb hm hA hB; omega
  | succ m ih =>
    intro nb A B hnb hm hA hB
    have hA' : A.length = 3 * nb * m + 3 * nb := by rw [hA, Nat.mul_succ]
    have hnb3 : 0 < 3 * nb := by omega
    by_cases hm0 : m = 0
    · subst hm0
      have hA3 : A.length = 3 * nb := by omega
      rw [colorFrames]
      rw [dif_neg (by
        simp only [not_or, List.length_append]
        exact ⟨by omega, by omega⟩)]
      have htake : (A ++ B).take (3 * nb) = A := by rw [← hA3, List.take_left]
      have hdrop : (A ++ B).drop (3 * nb) = B := by rw [← hA3, List.drop_left]
      rw [htake, hdrop]
      conv_rhs => rw [colorFrames]
      rw [dif_pos (Or.inr (by omega))]
      have hdiv : A.length / 3 = nb := by rw [hA3]; omega
      rw [hdiv]
      simp
    · have hmpos : 0 < 3 * nb * m := Nat.mul_pos hnb3 (by omega)
      have hAgt : 3 * nb < A.length := by omega
      have hAle : 3 * nb ≤ A.length := by omega
      rw [colorFrames]
      rw [dif_neg (by
        simp only [not_or, List.length_append]
        exact ⟨by omega, by omega⟩)]
      rw [List.take_append_of_le_length hAle, List.drop_append_of_le_length hAle]
      have hdl : (A.drop (3 * nb)).length = 3 * nb * m := by
        simp only [List.length_drop]
        omega
      rw [ih nb (A.drop (3 * nb)) B hnb (by omega) hdl hB]
      conv_rhs => rw [colorFrames]
      rw [dif_neg (by simp only [not_or]; exact ⟨by omega, by omega⟩)]
      simp

lemma etch_color_chunks (nb mm : Nat) : ∀ (fuel : Nat) (P : List Nat), 1 ≤ nb → 1 ≤ mm →
    3 ∣ P.length → 3 ≤ P.length → P.length ≤ fuel →
    (optSequence ((chunksOfAux (3 * nb * mm) fuel P).map
        (fun ch => etch_color_thread nb ch (ch.length + 1) 0))).map List.flatten
      = some (colorFrames nb P) := by
  intro fuel
  induction fuel with
  | zero => intro P hnb hmm h3 hge hf; omega
  | succ fuel ih =>
    intro P hnb hmm h3 hge hf
    rcases P with _ | ⟨p, t⟩
    · simp at hge
    have hstep : chunksOfAux (3 * nb * mm) (fuel + 1) (p :: t) =
        (p :: t).take (3 * nb * mm) :: chunksOfAux (3 * nb * mm) fuel ((p :: t).drop (3 * nb * mm)) :=
      rfl
    rw [hstep]
    by_cases hsmall : (p :: t).length ≤ 3 * nb * mm
    · rw [List.take_of_length_le hsmall, List.drop_eq_nil_of_le hsmall, chunksOfAux_nil]
      rw [List.map_cons, List.map_nil]
      rw [etch_color_thread_spec ((p :: t).length + 1) nb (p :: t) h3 hge hnb (by omega)]
      simp [optSequence]
    · push_neg at hsmall
      have hc3 : (3 : Nat) ∣ 3 * nb * mm := ⟨nb * mm, by ring⟩
      have hcge : 3 ≤ 3 * nb * mm := by nlinarith
      have htlen : ((p :: t).take (3 * nb * mm)).length = 3 * nb * mm := by
        rw [List.length_take]
        omega
      rw [List.map_cons]
      rw [etch_color_thread_spec (((p :: t).take (3 * nb * mm)).length + 1) nb
        ((p :: t).take (3 * nb * mm)) (by rw [htlen]; exact ⟨nb * mm, by ring⟩)
        (by omega) hnb (by omega)]
      have hdlen : ((p :: t).drop (3 * nb * mm)).length = (p :: t).length - 3 * nb * mm :=
        List.length_drop _ _
      have ihx := ih ((p :: t).drop (3 * nb * mm)) hnb hmm (by rw [hdlen]; omega)
        (by rw [hdlen]; omega) (by rw [hdlen]; omega)
      cases hopt : optSequence ((chunksOfAux (3 * nb * mm) fuel
          ((p :: t).drop (3 * nb * mm))).map
            (fun ch => etch_color_thread nb ch (ch.length + 1) 0)) with
      | none =>
        rw [hopt] at ihx
        simp at ihx
      | some L =>
        rw [hopt] at ihx
        simp only [Option.map_some', Option.some_inj] at ihx
        simp only [optSequence, hopt]
        simp only [Option.map_some', List.flatten_cons, Option.some_inj]
        rw [ihx]
        rw [← colorFrames_append mm nb ((p :: t).take (3 * nb * mm))
          ((p :: t).drop (3 * nb * mm)) hnb hmm htlen (by rw [hdlen]; omega)]
        rw [List.take_append_drop]

lemma etch_bw_loop_acc (data : List Bool) : ∀ (nb i : Nat) (acc : Frame),
    etch_bw_loop data i nb acc =
      (etch_bw_loop data i nb []).map (fun r => (acc ++ r.1, r.2)) := by
  intro nb
  induction nb with
  | zero => intro i acc; simp [etch_bw_loop]
  | succ nb ih =>
    intro i acc
    rcases h0 : data[i]? with _ | bit
    · simp [etch_bw_loop, h0]
    by_cases hc : i + 1 ≥ data.length
    · simp [etch_bw_loop, h0, hc]
    · simp only [etch_bw_loop, h0]
      rw [if_neg hc, if_neg hc]
      rw [ih (i + 1) (acc ++ [bwBlock bit]), ih (i + 1) ([] ++ [bwBlock bit])]
      cases hbase : etch_bw_loop data (i + 1) nb [] <;> simp

lemma etch_bw_loop_shift (data : List Bool) (j : Nat) : ∀ (nb i : Nat),
    etch_bw_loop data (j + i) nb [] =
      (etch_bw_loop (data.drop j) i nb []).map (fun r => (r.1, j + r.2.1, r.2.2)) := by
  intro nb
  induction nb with
  | zero => intro i; simp [etch_bw_loop]
  | succ nb ih =>
    intro i
    have e0 : data[j + i]? = (data.drop j)[i]? := (List.getElem?_drop data j i).symm
    rcases h0 : (data.drop j)[i]? with _ | bit
    · simp only [etch_bw_loop, e0, h0]
      simp
    have hlt : i < (data.drop j).length := by
      by_contra hge
      rw [List.getElem?_eq_none_iff.mpr (by omega)] at h0
      exact Option.noConfusion h0
    have hdlen : (data.drop j).length = data.length - j := List.length_drop j data
    by_cases hc : i + 1 ≥ (data.drop j).length
    · have hc2 : j + i + 1 ≥ data.length := by omega
      simp only [etch_bw_loop, e0, h0]
      rw [if_pos hc2, if_pos hc]
      simp [Nat.add_assoc]
    · have hc2 : ¬ j + i + 1 ≥ data.length := by omega
      simp only [etch_bw_loop, e0, h0]
      rw [if_neg hc2, if_neg hc]
      rw [etch_bw_loop_acc data nb (j + i + 1) ([] ++ [bwBlock bit])]
      rw [etch_bw_loop_acc (data.drop j) nb (i + 1) ([] ++ [bwBlock bit])]
      have hshift := ih (i + 1)
      rw [show j + i + 1 = j + (i + 1) by omega, hshift]
      cases hbase : etch_bw_loop (data.drop j) (i + 1) nb [] <;> simp

lemma etch_bw_loop_spec : ∀ (nb : Nat) (data : List Bool) (acc : Frame),
    1 ≤ data.length →
    etch_bw_loop data 0 nb acc =
      (if data.length ≤ nb then
        some (acc ++ bitsToBlocks data ++ List.replicate (nb - data.length) (0, 0, 0),
          data.length, false)
      else some (acc ++ bitsToBlocks (data.take nb), nb, true)) := by
  intro nb
  induction nb with
  | zero =>
    intro data acc hge
    rw [if_neg (by omega)]
    simp [etch_bw_loop, bitsToBlocks]
  | succ nb ih =>
    intro data acc hge
    rcases data with _ | ⟨x, t⟩
    · simp at hge
    have hlen : (x :: t).length = t.length + 1 := by simp
    by_cases ht0 : t.length = 0
    · have hrest : t = [] := List.length_eq_zero.mp ht0
      subst hrest
      simp only [etch_bw_loop, List.getElem?_cons_zero]
      rw [if_pos (by simp), if_pos (by simp only [List.length_cons, List.length_nil]; omega)]
      simp [bitsToBlocks]
    · have hc : ¬ 0 + 1 ≥ (x :: t).length := by
        rw [hlen]
        omega
      simp only [etch_bw_loop, List.getElem?_cons_zero]
      rw [if_neg hc]
      rw [etch_bw_loop_acc _ nb (0 + 1) (acc ++ [bwBlock x])]
      have hdrop : (x :: t).drop 1 = t := by simp
      have hsh := etch_bw_loop_shift (x :: t) 1 nb 0
      rw [hdrop] at hsh
      rw [show (0 + 1 : Nat) = 1 + 0 by omega, hsh]
      rw [ih t [] (by omega)]
      by_cases hsmall : t.length ≤ nb
      · rw [if_pos hsmall, if_pos (by rw [hlen]; omega)]
        have hbb : bitsToBlocks (x :: t) = bwBlock x :: bitsToBlocks t := rfl
        have hnn : nb + 1 - (t.length + 1) = nb - t.length := by omega
        rw [hbb, hlen, hnn]
        simp [Nat.add_comm]
      · rw [if_neg hsmall, if_neg (by rw [hlen]; omega)]
        have htk : (x :: t).take (nb + 1) = x :: t.take nb := rfl
        have hbb : bitsToBlocks (x :: t.take nb) = bwBlock x :: bitsToBlocks (t.take nb) := rfl
        rw [htk, hbb, show nb + 1 = 1 + nb by omega]
        simp

lemma etch_bw_thread_step_err (nb : Nat) (data : List Bool) (fuel i : Nat) (f : Frame)
    (i2 : Nat) (h : etch_bw_loop data i nb [] = some (f, i2, false)) :
    etch_bw_thread nb data (fuel + 1) i = some [f] := by
  simp [etch_bw_thread, h]

lemma etch_bw_thread_step_ok (nb : Nat) (data : List Bool) (fuel i : Nat) (f : Frame)
    (i2 : Nat) (h : etch_bw_loop data i nb [] = some (f, i2, true)) :
    etch_bw_thread nb data (fuel + 1) i =
      (etch_bw_thread nb data fuel i2).map (fun fs => f :: fs) := by
  simp [etch_bw_thread, h]

lemma etch_bw_thread_drop : ∀ (fuel nb : Nat) (data : List Bool) (j : Nat),
    etch_bw_thread nb data fuel j = etch_bw_thread nb (data.drop j) fuel 0 := by
  intro fuel
  induction fuel with
  | zero => intro nb data j; rfl
  | succ fuel ih =>
    intro nb data j
    have hsh := etch_bw_loop_shift data j nb 0
    rw [Nat.add_zero] at hsh
    simp only [etch_bw_thread]
    cases hbase : etch_bw_loop (data.drop j) 0 nb [] with
    | none =>
      rw [hsh, hbase]
      simp
    | some res =>
      obtain ⟨f, i2, ok⟩ := res
      rw [hsh, hbase]
      cases ok with
      | false => simp
      | true =>
        simp only [Option.map_some']
        rw [ih nb data (j + i2), ih nb (data.drop j) i2, List.drop_drop]

lemma etch_bw_thread_spec : ∀ (fuel nb : Nat) (data : List Bool),
    1 ≤ data.length → 1 ≤ nb → data.length ≤ fuel →
    etch_bw_thread nb data fuel 0 = some (bwFrames nb data) := by
  intro fuel
  induction fuel with
  | zero => intro nb data hge hnb hf; omega
  | succ fuel ih =>
    intro nb data hge hnb hf
    by_cases hsmall : data.length ≤ nb
    · have hloop : etch_bw_loop data 0 nb [] =
          some ([] ++ bitsToBlocks data ++ List.replicate (nb - data.length) (0, 0, 0),
            data.length, false) := by
        rw [etch_bw_loop_spec nb data [] hge, if_pos hsmall]
      rw [etch_bw_thread_step_err nb data fuel 0 _ _ hloop]
      rw [bwFrames]
      rw [dif_pos (Or.inr hsmall)]
      simp
    · have hloop : etch_bw_loop data 0 nb [] =
          some ([] ++ bitsToBlocks (data.take nb), nb, true) := by
        rw [etch_bw_loop_spec nb data [] hge, if_neg hsmall]
      rw [etch_bw_thread_step_ok nb data fuel 0 _ _ hloop]
      rw [etch_bw_thread_drop fuel nb data nb]
      have hge1 : 1 ≤ (data.drop nb).length := by
        simp only [List.length_drop]
        omega
      have hfuel : (data.drop nb).length ≤ fuel := by
        simp only [List.length_drop]
        omega
      rw [ih nb (data.drop nb) hge1 hnb hfuel]
      conv_rhs => rw [bwFrames]
      rw [dif_neg (by simp only [not_or]; exact ⟨by omega, hsmall⟩)]
      simp

lemma bwFrames_append : ∀ (m nb : Nat) (A B : List Bool), 1 ≤ nb → 1 ≤ m →
    A.length = nb * m → 1 ≤ B.length →
    bwFrames nb (A ++ B) = bwFrames nb A ++ bwFrames nb B := by
  intro m
  induction m with
  | zero => intro nb A B hnb hm hA hB; omega
  | succ m ih =>
    intro nb A B hnb hm hA hB
    have hA' : A.length = nb * m + nb := by rw [hA, Nat.mul_succ]
    by_cases hm0 : m = 0
    · subst hm0
      have hA3 : A.length = nb := by omega
      rw [bwFrames]
      rw [dif_neg (by
        simp only [not_or, List.length_append]
        exact ⟨by omega, by omega⟩)]
      have htake : (A ++ B).take nb = A := by rw [← hA3, List.take_left]
      have hdrop : (A ++ B).drop nb = B := by rw [← hA3, List.drop_left]
      rw [htake, hdrop]
      conv_rhs => rw [bwFrames]
      rw [dif_pos (Or.inr (by omega))]
      rw [hA3]
      simp
    · have hmpos : 0 < nb * m := Nat.mul_pos (by omega) (by omega)
      have hAgt : nb < A.length := by omega
      have hAle : nb ≤ A.length := by omega
      rw [bwFrames]
      rw [dif_neg (by
        simp only [not_or, List.length_append]
        exact ⟨by omega, by omega⟩)]
      rw [List.take_append_of_le_length hAle, List.drop_append_of_le_length hAle]
      have hdl : (A.drop nb).length = nb * m := by
        simp only [List.length_drop]
        omega
      rw [ih nb (A.drop nb) B hnb (by omega) hdl hB]
      conv_rhs => rw [bwFrames]
      rw [dif_neg (by simp only [not_or]; exact ⟨by omega, by omega⟩)]
      simp

lemma etch_bw_chunks (nb mm : Nat) : ∀ (fuel : Nat) (P : List Bool), 1 ≤ nb → 1 ≤ mm →
    1 ≤ P.length → P.length ≤ fuel →
    (optSequence ((chunksOfAux (nb * mm) fuel P).map
        (fun ch => etch_bw_thread nb ch (ch.length + 1) 0))).map List.flatten
      = some (bwFrames nb P) := by
  intro fuel
  induction fuel with
  | zero => intro P hnb hmm hge hf; omega
  | succ fuel ih =>
    intro P hnb hmm hge hf
    rcases P with _ | ⟨p, t⟩
    · simp at hge
    have hstep : chunksOfAux (nb * mm) (fuel + 1) (p :: t) =
        (p :: t).take (nb * mm) :: chunksOfAux (nb * mm) fuel ((p :: t).drop (nb * mm)) := rfl
    rw [hstep]
    by_cases hsmall : (p :: t).length ≤ nb * mm
    · rw [List.take_of_length_le hsmall, List.drop_eq_nil_of_le hsmall, chunksOfAux_nil]
      rw [List.map_cons, List.map_nil]
      rw [etch_bw_thread_spec ((p :: t).length + 1) nb (p :: t) hge hnb (by omega)]
      simp [optSequence]
    · push_neg at hsmall
      have hcge : 1 ≤ nb * mm := Nat.mul_pos (by omega) (by omega)
      have htlen : ((p :: t).take (nb * mm)).length = nb * mm := by
        rw [List.length_take]
        omega
      rw [List.map_cons]
      rw [etch_bw_thread_spec (((p :: t).take (nb * mm)).length + 1) nb
        ((p :: t).take (nb * mm)) (by omega) hnb (by omega)]
      have hdlen : ((p :: t).drop (nb * mm)).length = (p :: t).length - nb * mm :=
        List.length_drop _ _
      have ihx := ih ((p :: t).drop (nb * mm)) hnb hmm (by rw [hdlen]; omega)
        (by rw [hdlen]; omega)
      cases hopt : optSequence ((chunksOfAux (nb * mm) fuel
          ((p :: t).drop (nb * mm))).map
            (fun ch => etch_bw_thread nb ch (ch.length + 1) 0)) with
      | none =>
        rw [hopt] at ihx
        simp at ihx
      | some L =>
        rw [hopt] at ihx
        simp only [Option.map_some', Option.some_inj] at ihx
        simp only [optSequence, hopt]
        simp only [Option.map_some', List.flatten_cons, Option.some_inj]
        rw [ihx]
        rw [← bwFrames_append mm nb ((p :: t).take (nb * mm))
          ((p :: t).drop (nb * mm)) hnb hmm htlen (by rw [hdlen]; omega)]
        rw [List.take_append_drop]

/-! Claim C7: worker-count invariance. -/

set_option maxRecDepth 40000 in
/-- C7 counterexample: with block 2 on a 5x5 frame (whose dimensions are not
multiples of the block) and a 36-byte Color payload, the encoder chunks
by a frame capacity computed from the full pixel count (18 bytes) while
a frame really holds 12 bytes, so chunk boundaries fall inside frames:
one worker yields 3 payload frames and four workers yield 4, with
different pixel content, refuting invariance over worker counts 1 and 4. -/
theorem C7_counterexample :
    etch ⟨2, 1, 5, 5⟩ (Data.from_color (List.replicate 36 1)) ≠
      etch ⟨2, 4, 5, 5⟩ (Data.from_color (List.replicate 36 1)) := by
  decide

/-- C7 amended: the concatenated frame sequence (instruction frame followed
by all worker frames in spawn order) is independent of the worker count,
for every worker count at least 1 - in particular for 1, 2, 4 and 8 -
provided width and height are multiples of the block size (at least one
block fits) and, in Color mode, the payload length is a nonzero multiple
of 3 (otherwise a worker chunk can end with 1 or 2 leftover bytes and
the encoder panics for some worker counts but not others). -/
theorem C7_amended_worker_invariance (size w h t : Nat) (d : Data)
    (hs : 1 ≤ size) (hdw : size ∣ w) (hdh : size ∣ h) (hws : size ≤ w) (hhs : size ≤ h)
    (ht : 1 ≤ t)
    (hcol : d.out_mode = OutputMode.Color → 3 ∣ d.bytes.length ∧ 0 < d.bytes.length)
    (hbin : d.out_mode = OutputMode.Binary → 0 < d.binary.length) :
    etch ⟨size, t, w, h⟩ d = etch ⟨size, 1, w, h⟩ d := by
  have hs0 : 0 < size := hs
  obtain ⟨a, ha⟩ := hdw
  obtain ⟨bq, hbq⟩ := hdh
  have hmodw : w % size = 0 := by rw [ha]; exact Nat.mul_mod_right size a
  have hmodh : h % size = 0 := by rw [hbq]; exact Nat.mul_mod_right size bq
  have hnb : blocksPerFrame size w h = a * bq := by
    unfold blocksPerFrame actualDim
    rw [hmodw, hmodh, Nat.sub_zero, Nat.sub_zero, ha, hbq,
      Nat.mul_div_cancel_left a hs0, Nat.mul_div_cancel_left bq hs0]
  have ha1 : 1 ≤ a := by
    rcases Nat.eq_zero_or_pos a with h0 | h0
    · rw [h0, Nat.mul_zero] at ha
      omega
    · exact h0
  have hb1 : 1 ≤ bq := by
    rcases Nat.eq_zero_or_pos bq with h0 | h0
    · rw [h0, Nat.mul_zero] at hbq
      omega
    · exact h0
  have hab : 1 ≤ a * bq := Nat.mul_pos ha1 hb1
  have hfds : w * h / (size * size) = a * bq := by
    rw [ha, hbq, show size * a * (size * bq) = size * size * (a * bq) by ring,
      Nat.mul_div_cancel_left _ (Nat.mul_pos hs0 hs0)]
  have hsne : ¬ size = 0 := by omega
  rcases d with ⟨P, bin, mode⟩
  cases mode with
  | Color =>
    obtain ⟨h3P, hposP⟩ := hcol rfl
    have hge3P : 3 ≤ P.length := by
      simp only at h3P hposP
      omega
    have hfdspos : 0 < w * h / (size * size) * 3 := by
      rw [hfds]
      omega
    have hfdsne : ¬ w * h / (size * size) * 3 = 0 := by omega
    have key : ∀ τ : Nat, 1 ≤ τ →
        etch ⟨size, τ, w, h⟩ ⟨P, bin, OutputMode.Color⟩ =
          (match etch_instructions ⟨size, 1, w, h⟩ ⟨P, bin, OutputMode.Color⟩ with
           | none => none
           | some instr =>
             if (colorFrames (a * bq) P).isEmpty then none
             else some (instr :: colorFrames (a * bq) P)) := by
      intro τ hτ
      have hτ0 : ¬ τ = 0 := by omega
      have hchunks := etch_color_chunks (a * bq)
        (P.length / (w * h / (size * size) * 3) / τ + 1) P.length P hab
        (Nat.le_add_left 1 _) (by simpa using h3P) hge3P (le_refl P.length)
      simp only [etch]
      rw [if_neg hsne, if_neg hfdsne, if_neg hτ0, hnb]
      rw [show (P.length / (w * h / (size * size) * 3) / τ + 1) * (w * h / (size * size) * 3)
            = 3 * (a * bq) * (P.length / (w * h / (size * size) * 3) / τ + 1) by
        rw [hfds]; ring]
      simp only [chunksOf]
      cases hseq : optSequence ((chunksOfAux
          (3 * (a * bq) * (P.length / (w * h / (size * size) * 3) / τ + 1)) P.length P).map
            (fun chunk => etch_color_thread (a * bq) chunk (chunk.length + 1) 0)) with
      | none =>
        rw [hseq] at hchunks
        simp at hchunks
      | some WF =>
        rw [hseq] at hchunks
        simp only [Option.map_some', Option.some_inj] at hchunks
        rw [show etch_instructions ⟨size, τ, w, h⟩ (⟨P, bin, OutputMode.Color⟩ : Data)
              = etch_instructions ⟨size, 1, w, h⟩ ⟨P, bin, OutputMode.Color⟩ from rfl]
        cases hio : etch_instructions ⟨size, 1, w, h⟩ (⟨P, bin, OutputMode.Color⟩ : Data) with
        | none => rfl
        | some iframe => simp [hchunks]
    rw [key t ht, key 1 (by omega)]
  | Binary =>
    have hposB : 0 < bin.length := by simpa using hbin rfl
    have hfdspos : 0 < w * h / (size * size) := by
      rw [hfds]
      omega
    have hfdsne : ¬ w * h / (size * size) = 0 := by omega
    have key : ∀ τ : Nat, 1 ≤ τ →
        etch ⟨size, τ, w, h⟩ ⟨P, bin, OutputMode.Binary⟩ =
          (match etch_instructions ⟨size, 1, w, h⟩ ⟨P, bin, OutputMode.Binary⟩ with
           | none => none
           | some instr =>
             if (bwFrames (a * bq) bin).isEmpty then none
             else some (instr :: bwFrames (a * bq) bin)) := by
      intro τ hτ
      have hτ0 : ¬ τ = 0 := by omega
      have hchunks := etch_bw_chunks (a * bq)
        (bin.length / (w * h / (size * size)) / τ + 1) bin.length bin hab
        (Nat.le_add_left 1 _) hposB (le_refl bin.length)
      simp only [etch]
      rw [if_neg hsne, if_neg hfdsne, if_neg hτ0, hnb]
      rw [show (bin.length / (w * h / (size * size)) / τ + 1) * (w * h / (size * size))
            = a * bq * (bin.length / (w * h / (size * size)) / τ + 1) by
        rw [hfds]; ring]
      simp only [chunksOf]
      cases hseq : optSequence ((chunksOfAux
          (a * bq * (bin.length / (w * h / (size * size)) / τ + 1)) bin.length bin).map
            (fun chunk => etch_bw_thread (a * bq) chunk (chunk.length + 1) 0)) with
      | none =>
        rw [hseq] at hchunks
        simp at hchunks
      | some WF =>
        rw [hseq] at hchunks
        simp only [Option.map_some', Option.some_inj] at hchunks
        rw [show etch_instructions ⟨size, τ, w, h⟩ (⟨P, bin, OutputMode.Binary⟩ : Data)
              = etch_instructions ⟨size, 1, w, h⟩ ⟨P, bin, OutputMode.Binary⟩ from rfl]
        cases hio : etch_instructions ⟨size, 1, w, h⟩ (⟨P, bin, OutputMode.Binary⟩ : Data) with
        | none => rfl
        | some iframe => simp [hchunks]
    rw [key t ht, key 1 (by omega)]

/-- C7 witness: with block 2 on a 4x4 frame (aligned dimensions) and a
12-byte Color payload, four workers produce the same frame sequence as
one worker. -/
theorem C7_witness :
    etch ⟨2, 4, 4, 4⟩ (Data.from_color (List.replicate 12 5)) =
      etch ⟨2, 1, 4, 4⟩ (Data.from_color (List.replicate 12 5)) :=
  C7_amended_worker_invariance 2 4 4 4 (Data.from_color (List.replicate 12 5))
    (by decide) (by decide) (by decide) (by decide) (by decide) (by decide)
    (fun _ => ⟨by decide, by decide⟩) (fun hm => OutputMode.noConfusion hm)

end InfStorage
